import Mathlib

/-!
Verification development for the ChatLab UI layer (Electron + Vue).

The TypeScript sources are shallowly embedded: JS strings become `List Char`
or `String`, `null`/`undefined` become `Option`, a fallible bridge call
(`window.chatApi.*`) becomes an `Except` argument describing the resolved or
rejected promise, and the single-threaded event loop around the import
progress queue becomes an explicit state machine.  JS `number` values that
the code only ever uses as non-negative counts are embedded as `Nat`;
`Math.round` of a non-negative quotient is embedded as exact rational
rounding (`⌊a/b + 1/2⌋`).
-/

namespace ChatLab

/-! ## truncateContent (RepeatAnalysis / Catchphrase panels)

Source:
`function truncateContent(content: string, maxLength = 30): string {`
`  if (content.length <= maxLength) return content`
`  return content.slice(0, maxLength) + '...'`
`}`
JS strings are embedded as `List Char`; the default `maxLength` is 30. -/

def truncateContent (content : List Char) (maxLength : Nat) : List Char :=
  if content.length ≤ maxLength then content
  else content.take maxLength ++ ['.', '.', '.']

/-! ## Ranking list: displayMembers / getRelativePercentage

Source:
`const displayMembers = computed(() => {`
`  return props.rankLimit > 0 ? props.members.slice(0, props.rankLimit) : props.members`
`})`
`function getRelativePercentage(index: number): number {`
`  if (displayMembers.value.length === 0) return 0`
`  const maxValue = displayMembers.value[0].value`
`  if (maxValue === 0) return 0`
`  return Math.round((displayMembers.value[index].value / maxValue) * 100)`
`}`
Values are message counts, embedded as `Nat`.  `Math.round((v / max) * 100)`
on non-negative arguments is `⌊(100 v) / max + 1/2⌋`, embedded exactly as
`jsRound (100 * v) max`.  An out-of-range index throws in JS (reading
`.value` of `undefined`); the claims only use valid indices, so the embedding
supplies the (irrelevant) first element as `getD` default. -/

structure RankItem where
  id : String
  name : String
  value : Nat
  percentage : Nat
deriving DecidableEq

/-- `Math.round (a / b)` for non-negative `a` and positive `b`:
`⌊a/b + 1/2⌋ = (2a + b) / (2b)` in integer division. -/
def jsRound (a b : Nat) : Nat :=
  (2 * a + b) / (2 * b)

def displayMembers (members : List RankItem) (rankLimit : Nat) : List RankItem :=
  if 0 < rankLimit then members.take rankLimit else members

def getRelativePercentage (ms : List RankItem) (index : Nat) : Nat :=
  match ms with
  | [] => 0
  | m0 :: _ =>
    if m0.value = 0 then 0
    else jsRound ((ms.getD index m0).value * 100) m0.value

/-- A two-element display list whose first element is not the maximum. -/
def rankDemo : List RankItem :=
  [{ id := "a", name := "A", value := 1, percentage := 10 },
   { id := "b", name := "B", value := 5, percentage := 50 }]

end ChatLab

namespace ChatLab

/-! ## ChangelogModal version normalization

Source:
`function normalizeVersion(version?: string | null) {`
`  return version ? version.trim().replace(/^v/i, '') : null`
`}`
`function isCurrentVersion(version: string) {`
`  const current = normalizeVersion(currentAppVersion.value)`
`  return current ? normalizeVersion(version) === current : false`
`}`
`null`/`undefined` and the (falsy) empty string are embedded as `none` /
`some []`; `trim` removes the common JS whitespace characters from both ends
(the embedding covers the ASCII ones, which is all the claims need);
`replace(/^v/i, '')` removes one leading `v` or `V` if present. -/

def isJsSpace (c : Char) : Bool :=
  c = ' ' || c = '\t' || c = '\n' || c = '\r' || c = '\x0b' || c = '\x0c'

def trimLeft (s : List Char) : List Char :=
  s.dropWhile isJsSpace

def trimRight (s : List Char) : List Char :=
  (s.reverse.dropWhile isJsSpace).reverse

def jsTrim (s : List Char) : List Char :=
  trimRight (trimLeft s)

def stripLeadingV : List Char → List Char
  | [] => []
  | c :: rest => if c = 'v' ∨ c = 'V' then rest else c :: rest

def normalizeVersion : Option (List Char) → Option (List Char)
  | none => none
  | some s => if s = [] then none else some (stripLeadingV (jsTrim s))

def isCurrentVersion (currentAppVersion : Option (List Char))
    (version : List Char) : Bool :=
  match normalizeVersion currentAppVersion with
  | none => false
  | some cur => if cur = [] then false
                else decide (normalizeVersion (some version) = some cur)

/-! ## Chat store (Pinia): sessions, loadSessions, deleteSession, renameSession

`AnalysisSession` is surfaced to the UI as metadata `(id, name)` (glossary);
the store reads exactly these two fields.  A bridge call is embedded as an
`Except` argument: `.ok` for a resolved promise, `.error` for a rejection
(the `catch` branch).  JS truthiness of a string is "non-empty". -/

structure AnalysisSession where
  id : String
  name : String
deriving DecidableEq

structure ChatStoreState where
  sessions : List AnalysisSession
  currentSessionId : Option String
  isInitialized : Bool
deriving DecidableEq

/-- `const currentSession = computed(() => {`
`  if (!currentSessionId.value) return null`
`  return sessions.value.find((s) => s.id === currentSessionId.value) || null })` -/
def currentSession (s : ChatStoreState) : Option AnalysisSession :=
  match s.currentSessionId with
  | none => none
  | some id => if id = "" then none else s.sessions.find? (fun x => x.id = id)

/-- `loadSessions`: on success replace `sessions`, clear a truthy
`currentSessionId` that is absent from the fetched list, set `isInitialized`;
on an exception just log and set `isInitialized`. -/
def loadSessions (bridge : Except String (List AnalysisSession))
    (s : ChatStoreState) : ChatStoreState :=
  match bridge with
  | .ok list =>
    { sessions := list,
      currentSessionId :=
        match s.currentSessionId with
        | none => none
        | some id =>
          if id ≠ "" ∧ (list.find? (fun x => x.id = id)).isNone then none
          else some id,
      isInitialized := true }
  | .error _ => { s with isInitialized := true }

/-- `findIndex` + `splice(index, 1)`: remove the first session with this id. -/
def eraseFirstSession (id : String) : List AnalysisSession → List AnalysisSession
  | [] => []
  | x :: rest => if x.id = id then rest else x :: eraseFirstSession id rest

/-- `deleteSession(id)`: on bridge success remove the session from the list
and clear the selection if it pointed at the deleted id; return the bridge
result; on an exception log and return `false`. -/
def deleteSession (id : String) (bridge : Except String Bool)
    (s : ChatStoreState) : ChatStoreState × Bool :=
  match bridge with
  | .error _ => (s, false)
  | .ok success =>
    if success then
      ({ s with
          sessions := eraseFirstSession id s.sessions,
          currentSessionId :=
            if s.currentSessionId = some id then none else s.currentSessionId },
        success)
    else (s, success)

/-- `find` + `session.name = newName`: rename the first session with this id. -/
def renameFirstSession (id newName : String) :
    List AnalysisSession → List AnalysisSession
  | [] => []
  | x :: rest =>
    if x.id = id then { x with name := newName } :: rest
    else x :: renameFirstSession id newName rest

/-- `renameSession(id, newName)`: mutate the matching session's name only when
the bridge returned `true`; return the bridge result; on an exception log and
return `false`. -/
def renameSession (id newName : String) (bridge : Except String Bool)
    (s : ChatStoreState) : ChatStoreState × Bool :=
  match bridge with
  | .error _ => (s, false)
  | .ok success =>
    (if success then
      { s with sessions := renameFirstSession id newName s.sessions }
     else s,
     success)

/-! ## Analysis panels: loadRepeatAnalysis / loadCatchphraseAnalysis

The analysis results are display DTOs fetched from the bridge; the panels
only store them.  Fields follow the template usage (`hotContents` with
`content`, `originatorName`, `count`, `maxChainLength`, `lastTs`;
`members` with `name` and `catchphrases`). -/

structure HotContent where
  content : String
  originatorName : String
  count : Nat
  maxChainLength : Nat
  lastTs : Nat
deriving DecidableEq

structure RepeatAnalysis where
  hotContents : List HotContent
deriving DecidableEq

structure Catchphrase where
  content : String
  count : Nat
deriving DecidableEq

structure CatchphraseMember where
  name : String
  catchphrases : List Catchphrase
deriving DecidableEq

structure CatchphraseAnalysis where
  members : List CatchphraseMember
deriving DecidableEq

structure RepeatPanelState where
  repeatAnalysis : Option RepeatAnalysis
  isLoading : Bool
deriving DecidableEq

structure CatchphrasePanelState where
  catchphraseAnalysis : Option CatchphraseAnalysis
  isLoadingCatchphrase : Bool
deriving DecidableEq

/-- `async function loadRepeatAnalysis()`: early-return on falsy sessionId;
set the loading flag, store the result on success, log on failure, and reset
the flag in `finally`. -/
def loadRepeatAnalysis (sessionId : String)
    (bridge : Except String RepeatAnalysis)
    (s : RepeatPanelState) : RepeatPanelState :=
  if sessionId = "" then s
  else
    match bridge with
    | .ok v => { repeatAnalysis := some v, isLoading := false }
    | .error _ => { s with isLoading := false }

/-- `async function loadCatchphraseAnalysis()`: same shape as
`loadRepeatAnalysis` with its own state refs. -/
def loadCatchphraseAnalysis (sessionId : String)
    (bridge : Except String CatchphraseAnalysis)
    (s : CatchphrasePanelState) : CatchphrasePanelState :=
  if sessionId = "" then s
  else
    match bridge with
    | .ok v => { catchphraseAnalysis := some v, isLoadingCatchphrase := false }
    | .error _ => { s with isLoadingCatchphrase := false }

/-! ## Timeline panel: loadMembersWithNicknameChanges

`Promise.all` over `memberActivity.map((member) =>`
`window.chatApi.getMemberNameHistory(props.sessionId, member.memberId))`,
then a `forEach` that keeps members whose history has more than one entry.
The resolved `Promise.all` array is embedded as a `histories` list aligned
with `memberActivity` (same length by construction in the source). -/

structure MemberActivity where
  memberId : Int
  name : String
deriving DecidableEq

structure MemberNameHistory where
  name : String
  startTs : Int
  endTs : Option Int
deriving DecidableEq

structure MemberWithHistory where
  memberId : Int
  name : String
  history : List MemberNameHistory
deriving DecidableEq

/-- The arguments of the `getMemberNameHistory` calls issued by the
`memberActivity.map(...)` fan-out, in order. -/
def nicknameHistoryCalls (sessionId : String) (ma : List MemberActivity) :
    List (String × Int) :=
  ma.map (fun m => (sessionId, m.memberId))

/-- The `forEach` accumulation: keep `(member, history)` pairs with
`history.length > 1`, in `memberActivity` order. -/
def buildMembersWithChanges :
    List MemberActivity → List (List MemberNameHistory) → List MemberWithHistory
  | [], _ => []
  | _ :: _, [] => []
  | m :: ms, h :: hs =>
    if 1 < h.length then
      { memberId := m.memberId, name := m.name, history := h } ::
        buildMembersWithChanges ms hs
    else buildMembersWithChanges ms hs

/-- The whole action: early-return (previous value kept, no calls) on a falsy
sessionId or an empty member list; otherwise issue one call per member and
rebuild the list.  Returns the new list together with the issued calls. -/
def loadMembersWithNicknameChanges (sessionId : String)
    (ma : List MemberActivity) (histories : List (List MemberNameHistory))
    (prev : List MemberWithHistory) :
    List MemberWithHistory × List (String × Int) :=
  if sessionId = "" ∨ ma.length = 0 then (prev, [])
  else (buildMembersWithChanges ma histories, nicknameHistoryCalls sessionId ma)

/-! ## Electron auto-updater wrapper: checkUpdate

`checkUpdate(win)` registers one `autoUpdater.on(...)` handler per event, in
source order.  Only the `download-progress` handler is a pure forwarder:
`autoUpdater.on('download-progress', (progressObj) => {`
`  console.log(... progressObj.percent ...)`
`  win.webContents.send('update-download-progress', progressObj.percent)`
`})`
The other four handlers drive dialogs / conditional toasts whose behaviour
depends on user responses; they are tagged, not unfolded, since no claim
depends on their bodies.  Percentages are JS floats, embedded as `Rat`. -/

inductive UpdateHandlerKind where
  /-- `update-available`: guarded by `showUpdateMessageBox`, parses release
  notes and opens a download confirmation dialog. -/
  | availableDialog
  /-- `download-progress`: logs and forwards the percent to the renderer. -/
  | forwardPercent
  /-- `update-downloaded`: opens an install confirmation dialog. -/
  | downloadedDialog
  /-- `update-not-available`: toast unless this is the first check. -/
  | notAvailableToast
  /-- `error`: logs and shows an error box. -/
  | errorBox
deriving DecidableEq

/-- The `autoUpdater.on` registrations of `checkUpdate`, in source order. -/
def checkUpdateRegistrations : List (String × UpdateHandlerKind) :=
  [("update-available", .availableDialog),
   ("download-progress", .forwardPercent),
   ("update-downloaded", .downloadedDialog),
   ("update-not-available", .notAvailableToast),
   ("error", .errorBox)]

inductive UpdEffect where
  | consoleLog (text : String)
  | send (channel : String) (percent : Rat)
deriving DecidableEq

/-- Body of the `download-progress` handler. -/
def downloadProgressHandler (percent : Rat) : List UpdEffect :=
  [.consoleLog ("更新下载进度: " ++ toString percent ++ "%"),
   .send "update-download-progress" percent]

/-- The renderer messages an effect list produces. -/
def rendererSends (effects : List UpdEffect) : List (String × Rat) :=
  effects.filterMap (fun e =>
    match e with
    | .send c v => some (c, v)
    | .consoleLog _ => none)

/-! ## importFileFromPath: the progress-event queue

The store's `importFileFromPath` sets up
`const queue: ImportProgress[] = []`, `let isProcessing = false`,
`let currentStage = 'reading'`, `let lastStageTime = Date.now()`,
`const MIN_STAGE_TIME = 1000`, with `importProgress.value` already holding
the placeholder `{ stage: 'detecting', progress: 0, message: '准备导入...' }`.
`processQueue` drains the queue in a `while` loop, and before applying an
event whose stage differs from `currentStage` it awaits
`setTimeout(MIN_STAGE_TIME - elapsed)`, i.e. suspends until
`lastStageTime + 1000`.

JS is single threaded: a run of `processQueue` executes synchronously until
it either empties the queue or reaches that `await`.  The embedding is a
state machine whose steps are the event-loop turns:
* `arrive p` — the `onImportProgress` callback: skip `'done'`, push, call
  `processQueue` (which returns at once if `isProcessing` is set, otherwise
  runs synchronously up to completion or the first `await`);
* `wake` — the `setTimeout` continuation: switch stage, record the time,
  shift-and-apply the head event, continue the loop;
* `tick d` — time passes;
* `force100` — the tail of `importFileFromPath` after the drain loop
  (`while (queue.length > 0 || isProcessing) ...`) and the final
  minimum-display wait: it reaches `importProgress.value.progress = 100`
  only once the queue is drained, no run is in flight, and at least
  `MIN_STAGE_TIME` has passed since `lastStageTime`.

Ghost fields record the history the claims talk about: `writes` logs every
assignment `importProgress.value = queue.shift()` with its time, `arrivals`
logs every pushed event. -/

def MIN_STAGE_TIME : Nat := 1000

structure ImportProgress where
  stage : String
  progress : Nat
  message : String
deriving DecidableEq

structure QueueSt where
  now : Nat
  queue : List ImportProgress
  isProcessing : Bool
  currentStage : String
  lastStageTime : Nat
  displayed : ImportProgress
  waiting : Option Nat
  writes : List (Nat × ImportProgress)
  arrivals : List ImportProgress
  forced : Bool
deriving DecidableEq

structure LoopResult where
  currentStage : String
  lastStageTime : Nat
  queue : List ImportProgress
  writes : List (Nat × ImportProgress)
  waiting : Option Nat
deriving DecidableEq

/-- The `while (queue.length > 0)` loop of `processQueue`, run at a fixed
time `now`, from tracker state `(cs, lst)`.  Per iteration: an event with an
unchanged stage is applied directly; a changed stage with
`elapsed ≥ MIN_STAGE_TIME` switches the tracker and is applied; otherwise the
run suspends (`await setTimeout`) until `lst + MIN_STAGE_TIME` with the queue
untouched. -/
def loopGo (now : Nat) (cs : String) (lst : Nat) :
    List ImportProgress → LoopResult
  | [] => { currentStage := cs, lastStageTime := lst, queue := [],
            writes := [], waiting := none }
  | p :: rest =>
    if p.stage = cs then
      let r := loopGo now cs lst rest
      { r with writes := (now, p) :: r.writes }
    else if lst + MIN_STAGE_TIME ≤ now then
      let r := loopGo now p.stage now rest
      { r with writes := (now, p) :: r.writes }
    else
      { currentStage := cs, lastStageTime := lst, queue := p :: rest,
        writes := [], waiting := some (lst + MIN_STAGE_TIME) }

/-- Last event of a write log, with a default for the empty log (the
previously displayed value). -/
def lastWriteD : List (Nat × ImportProgress) → ImportProgress → ImportProgress
  | [], d => d
  | w :: rest, _ => lastWriteD rest w.2

/-- Write a `loopGo` result back into the store state.  `isProcessing` stays
set exactly when the run suspended. -/
def runSync (s : QueueSt) : QueueSt :=
  { s with
    currentStage := (loopGo s.now s.currentStage s.lastStageTime s.queue).currentStage,
    lastStageTime := (loopGo s.now s.currentStage s.lastStageTime s.queue).lastStageTime,
    queue := (loopGo s.now s.currentStage s.lastStageTime s.queue).queue,
    writes := s.writes ++ (loopGo s.now s.currentStage s.lastStageTime s.queue).writes,
    displayed := lastWriteD (loopGo s.now s.currentStage s.lastStageTime s.queue).writes s.displayed,
    waiting := (loopGo s.now s.currentStage s.lastStageTime s.queue).waiting,
    isProcessing := (loopGo s.now s.currentStage s.lastStageTime s.queue).waiting.isSome }

inductive QAct where
  | arrive (p : ImportProgress)
  | wake
  | tick (d : Nat)
  | force100
deriving DecidableEq

def step (s : QueueSt) : QAct → QueueSt
  | .tick d => { s with now := s.now + d }
  | .arrive p =>
    if p.stage = "done" then s
    else
      if s.isProcessing then
        { s with queue := s.queue ++ [p], arrivals := s.arrivals ++ [p] }
      else
        runSync { s with queue := s.queue ++ [p], arrivals := s.arrivals ++ [p],
                         isProcessing := true }
  | .wake =>
    match s.waiting with
    | none => s
    | some d =>
      if d ≤ s.now then
        match s.queue with
        | [] => s
        | p :: rest =>
          runSync { s with
            currentStage := p.stage,
            lastStageTime := s.now,
            queue := rest,
            writes := s.writes ++ [(s.now, p)],
            displayed := p,
            waiting := none }
      else s
  | .force100 =>
    if s.queue = [] ∧ s.isProcessing = false ∧
        s.lastStageTime + MIN_STAGE_TIME ≤ s.now then
      { s with displayed := { s.displayed with progress := 100 }, forced := true }
    else s

/-- State right after the initialisation block of `importFileFromPath`. -/
def initSt (t0 : Nat) : QueueSt :=
  { now := t0, queue := [], isProcessing := false,
    currentStage := "reading", lastStageTime := t0,
    displayed := { stage := "detecting", progress := 0, message := "准备导入..." },
    waiting := none, writes := [], arrivals := [], forced := false }

def runActs (s : QueueSt) (acts : List QAct) : QueueSt :=
  acts.foldl step s

/-- Inductive invariant of the queue machine:
the `isProcessing` flag is set exactly while a (suspended) `processQueue`
run is in flight; a suspension always waits until `lastStageTime + 1000`
for a queue head whose stage differs from the tracker; a finished run leaves
an empty queue; the write log plus the pending queue is exactly the arrival
log (FIFO, no duplication, no loss); and once anything has been written the
displayed stage agrees with the tracker. -/
def Inv (s : QueueSt) : Prop :=
  s.isProcessing = s.waiting.isSome ∧
  (∀ d, s.waiting = some d →
    d = s.lastStageTime + MIN_STAGE_TIME ∧
    ∃ p rest, s.queue = p :: rest ∧ p.stage ≠ s.currentStage) ∧
  (s.waiting = none → s.queue = []) ∧
  s.arrivals = s.writes.map Prod.snd ++ s.queue ∧
  (s.writes = [] ∨ s.displayed.stage = s.currentStage)

end ChatLab

namespace ChatLab

lemma length_dropWhile_le (p : Char → Bool) :
    ∀ l : List Char, (l.dropWhile p).length ≤ l.length := by
  intro l
  induction l with
  | nil => simp
  | cons x xs ih =>
    by_cases h : p x
    · simp only [List.dropWhile_cons, h, if_true]
      exact Nat.le_succ_of_le ih
    · simp [List.dropWhile_cons, h]

lemma dropWhile_cons_of_self (p : Char → Bool) (a : Char) (l : List Char)
    (h : List.dropWhile p (a :: l) = a :: l) : p a = false := by
  by_cases hp : p a
  · exfalso
    have h1 : List.dropWhile p (a :: l) = List.dropWhile p l := by
      simp [List.dropWhile_cons, hp]
    have h2 : (List.dropWhile p l).length ≤ l.length := length_dropWhile_le p l
    rw [h1] at h
    have : (a :: l).length = (List.dropWhile p l).length := by rw [← h]
    simp at this
    omega
  · simpa using hp

lemma dropWhile_append_of_self (p : Char → Bool) (l m : List Char)
    (hl : List.dropWhile p l = l) (hm : ∀ c ∈ m.head?, p c = false) :
    List.dropWhile p (l ++ m) = l ++ m := by
  cases l with
  | nil =>
    simp only [List.nil_append]
    cases m with
    | nil => simp
    | cons c cs =>
      have : p c = false := hm c (by simp)
      simp [List.dropWhile_cons, this]
  | cons a l' =>
    have ha : p a = false := dropWhile_cons_of_self p a l' hl
    simp [List.dropWhile_cons, ha]

lemma getD_mem_of_lt {α : Type} : ∀ (l : List α) (i : Nat) (d : α),
    i < l.length → l.getD i d ∈ l := by
  intro l
  induction l with
  | nil => intro i d h; simp at h
  | cons x xs ih =>
    intro i d h
    cases i with
    | zero => simp [List.getD]
    | succ n =>
      have hn : n < xs.length := by simpa using h
      simpa [List.getD] using Or.inr (ih n d hn)

lemma foldr_max_le (l : List Nat) (b : Nat) (h : ∀ v ∈ l, v ≤ b) :
    l.foldr Nat.max 0 ≤ b := by
  induction l with
  | nil => simp
  | cons x xs ih =>
    simp only [List.foldr_cons]
    exact Nat.max_le.mpr ⟨h x (by simp), ih (fun v hv => h v (by simp [hv]))⟩

lemma jsRound_le_100 (v m : Nat) (hm : 0 < m) (hv : v ≤ m) :
    jsRound (v * 100) m ≤ 100 := by
  unfold jsRound
  have h1 : 2 * (v * 100) + m ≤ m + 2 * m * 100 := by nlinarith
  have h2 : (2 * (v * 100) + m) / (2 * m) ≤ (m + 2 * m * 100) / (2 * m) :=
    Nat.div_le_div_right h1
  have h3 : (m + 2 * m * 100) / (2 * m) = 100 := by
    rw [Nat.add_mul_div_left m 100 (show 0 < 2 * m by omega),
      Nat.div_eq_of_lt (show m < 2 * m by omega)]
  omega

end ChatLab

namespace ChatLab

lemma loopGo_queue_writes (now : Nat) :
    ∀ (q : List ImportProgress) (cs : String) (lst : Nat),
    (loopGo now cs lst q).writes.map Prod.snd ++ (loopGo now cs lst q).queue = q := by
  intro q
  induction q with
  | nil => intro cs lst; simp [loopGo]
  | cons p rest ih =>
    intro cs lst
    by_cases h1 : p.stage = cs
    · simp [loopGo, h1, ih]
    · by_cases h2 : lst + MIN_STAGE_TIME ≤ now
      · simp [loopGo, h1, h2, ih]
      · simp [loopGo, h1, h2]

lemma loopGo_stage_now (now : Nat) :
    ∀ (q : List ImportProgress) (cs : String),
    (loopGo now cs now q).currentStage = cs ∧
    (loopGo now cs now q).lastStageTime = now := by
  intro q
  induction q with
  | nil => intro cs; simp [loopGo]
  | cons p rest ih =>
    intro cs
    by_cases h1 : p.stage = cs
    · simpa [loopGo, h1] using ih cs
    · have h2 : ¬ (now + MIN_STAGE_TIME ≤ now) := by
        simp only [MIN_STAGE_TIME]; omega
      simp [loopGo, h1, h2]

lemma loopGo_switch (now : Nat) :
    ∀ (q : List ImportProgress) (cs : String) (lst : Nat),
    ((loopGo now cs lst q).currentStage = cs ∧
     (loopGo now cs lst q).lastStageTime = lst) ∨
    ((loopGo now cs lst q).currentStage ≠ cs ∧
     (loopGo now cs lst q).lastStageTime = now ∧
     lst + MIN_STAGE_TIME ≤ now) := by
  intro q
  induction q with
  | nil => intro cs lst; left; simp [loopGo]
  | cons p rest ih =>
    intro cs lst
    by_cases h1 : p.stage = cs
    · simpa [loopGo, h1] using ih cs lst
    · by_cases h2 : lst + MIN_STAGE_TIME ≤ now
      · right
        have h3 := loopGo_stage_now now rest p.stage
        simp [loopGo, h1, h2, h3.1, h3.2, h2]
      · left; simp [loopGo, h1, h2]

lemma loopGo_waiting (now : Nat) :
    ∀ (q : List ImportProgress) (cs : String) (lst : Nat) (d : Nat),
    (loopGo now cs lst q).waiting = some d →
    d = (loopGo now cs lst q).lastStageTime + MIN_STAGE_TIME ∧
    ∃ p rest, (loopGo now cs lst q).queue = p :: rest ∧
      p.stage ≠ (loopGo now cs lst q).currentStage := by
  intro q
  induction q with
  | nil => intro cs lst d h; simp [loopGo] at h
  | cons p rest ih =>
    intro cs lst d h
    by_cases h1 : p.stage = cs
    · simp only [loopGo, if_pos h1] at h ⊢
      exact ih cs lst d h
    · by_cases h2 : lst + MIN_STAGE_TIME ≤ now
      · simp only [loopGo, if_neg h1, if_pos h2] at h ⊢
        exact ih p.stage now d h
      · simp only [loopGo, if_neg h1, if_neg h2] at h ⊢
        refine ⟨by simpa using h.symm, p, rest, rfl, h1⟩

lemma loopGo_none_queue (now : Nat) :
    ∀ (q : List ImportProgress) (cs : String) (lst : Nat),
    (loopGo now cs lst q).waiting = none → (loopGo now cs lst q).queue = [] := by
  intro q
  induction q with
  | nil => intro cs lst _; simp [loopGo]
  | cons p rest ih =>
    intro cs lst h
    by_cases h1 : p.stage = cs
    · simp only [loopGo, if_pos h1] at h ⊢
      exact ih cs lst h
    · by_cases h2 : lst + MIN_STAGE_TIME ≤ now
      · simp only [loopGo, if_neg h1, if_pos h2] at h ⊢
        exact ih p.stage now h
      · simp only [loopGo, if_neg h1, if_neg h2] at h
        exact absurd h (Option.some_ne_none _)

lemma loopGo_last (now : Nat) :
    ∀ (q : List ImportProgress) (cs : String) (lst : Nat) (dflt : ImportProgress),
    ((loopGo now cs lst q).writes = [] ∧ (loopGo now cs lst q).currentStage = cs) ∨
    (lastWriteD (loopGo now cs lst q).writes dflt).stage =
      (loopGo now cs lst q).currentStage := by
  intro q
  induction q with
  | nil => intro cs lst dflt; left; simp [loopGo]
  | cons p rest ih =>
    intro cs lst dflt
    by_cases h1 : p.stage = cs
    · simp only [loopGo, if_pos h1]
      rcases ih cs lst p with ⟨hw, hcs⟩ | hlast
      · right; simp [lastWriteD, hw, hcs, h1]
      · right; simpa [lastWriteD] using hlast
    · by_cases h2 : lst + MIN_STAGE_TIME ≤ now
      · simp only [loopGo, if_neg h1, if_pos h2]
        rcases ih p.stage now p with ⟨hw, hcs⟩ | hlast
        · right; simp [lastWriteD, hw, hcs]
        · right; simpa [lastWriteD] using hlast
      · left
        simp [loopGo, h1, h2]

lemma inv_runSync (s : QueueSt)
    (h4 : s.arrivals = s.writes.map Prod.snd ++ s.queue)
    (h5 : s.writes = [] ∨ s.displayed.stage = s.currentStage) :
    Inv (runSync s) := by
  refine ⟨rfl, ?_, ?_, ?_, ?_⟩
  · intro d hd
    simp only [runSync] at hd ⊢
    exact loopGo_waiting s.now s.queue s.currentStage s.lastStageTime d hd
  · intro hn
    simp only [runSync] at hn ⊢
    exact loopGo_none_queue s.now s.queue s.currentStage s.lastStageTime hn
  · simp only [runSync, List.map_append, List.append_assoc]
    rw [h4, loopGo_queue_writes]
  · simp only [runSync]
    rcases loopGo_last s.now s.queue s.currentStage s.lastStageTime s.displayed
      with ⟨hw, hcs⟩ | hlast
    · rcases h5 with h5l | h5r
      · left; simp [hw, h5l]
      · right; simp [hw, lastWriteD, h5r, hcs]
    · right; exact hlast

lemma inv_step (s : QueueSt) (a : QAct) (h : Inv s) : Inv (step s a) := by
  obtain ⟨h1, h2, h3, h4, h5⟩ := h
  cases a with
  | tick d => exact ⟨h1, h2, h3, h4, h5⟩
  | arrive p =>
    by_cases hdone : p.stage = "done"
    · simp only [step, if_pos hdone]
      exact ⟨h1, h2, h3, h4, h5⟩
    · cases hproc : s.isProcessing with
      | true =>
        simp only [step, if_neg hdone, hproc, if_true]
        refine ⟨?_, ?_, ?_, ?_, h5⟩
        · show (true : Bool) = s.waiting.isSome
          rw [← hproc]
          exact h1
        · intro d hd
          obtain ⟨hd1, ph, rest, hq, hs⟩ := h2 d hd
          exact ⟨hd1, ph, rest ++ [p], by simp [hq], hs⟩
        · intro hn
          rw [hproc, hn] at h1
          simp at h1
        · show s.arrivals ++ [p] = List.map Prod.snd s.writes ++ (s.queue ++ [p])
          simp [h4]
      | false =>
        simp only [step, if_neg hdone, hproc, if_false]
        refine inv_runSync _ ?_ h5
        show s.arrivals ++ [p] = List.map Prod.snd s.writes ++ (s.queue ++ [p])
        simp [h4]
  | wake =>
    cases hw : s.waiting with
    | none =>
      simp only [step, hw]
      exact ⟨h1, h2, h3, h4, h5⟩
    | some d =>
      by_cases hd : d ≤ s.now
      · obtain ⟨hdt, ph, rest, hq, hst⟩ := h2 d hw
        simp only [step, hw, hq, if_pos hd]
        refine inv_runSync _ ?_ (Or.inr rfl)
        show s.arrivals =
          List.map Prod.snd (s.writes ++ [(s.now, ph)]) ++ rest
        rw [h4, hq]
        simp
      · simp only [step, hw, if_neg hd]
        exact ⟨h1, h2, h3, h4, h5⟩
  | force100 =>
    by_cases hg : s.queue = [] ∧ s.isProcessing = false ∧
        s.lastStageTime + MIN_STAGE_TIME ≤ s.now
    · simp only [step, if_pos hg]
      refine ⟨h1, h2, h3, h4, ?_⟩
      rcases h5 with h5l | h5r
      · exact Or.inl h5l
      · exact Or.inr h5r
    · simp only [step, if_neg hg]
      exact ⟨h1, h2, h3, h4, h5⟩

lemma inv_initSt (t0 : Nat) : Inv (initSt t0) := by
  refine ⟨rfl, ?_, fun _ => rfl, by simp [initSt], Or.inl rfl⟩
  intro d hd
  simp [initSt] at hd

lemma inv_runActs (acts : List QAct) :
    ∀ s : QueueSt, Inv s → Inv (runActs s acts) := by
  induction acts with
  | nil => intro s h; exact h
  | cons a rest ih => intro s h; exact ih (step s a) (inv_step s a h)

/-- Either a step leaves the stage tracker alone (and then also the stage
timestamp), or it switches the tracker: then at least `MIN_STAGE_TIME` has
passed since the previous switch and the timestamp is updated to now. -/
lemma step_cs_lst (s : QueueSt) (a : QAct) (h : Inv s) :
    ((step s a).currentStage = s.currentStage ∧
     (step s a).lastStageTime = s.lastStageTime) ∨
    ((step s a).currentStage ≠ s.currentStage ∧
     (step s a).lastStageTime = s.now ∧
     s.lastStageTime + MIN_STAGE_TIME ≤ s.now) := by
  obtain ⟨h1, h2, h3, h4, h5⟩ := h
  cases a with
  | tick d => exact Or.inl ⟨rfl, rfl⟩
  | arrive p =>
    by_cases hdone : p.stage = "done"
    · left
      constructor <;> simp [step, hdone]
    · cases hproc : s.isProcessing with
      | true =>
        left
        constructor <;> simp [step, hdone, hproc]
      | false =>
        rcases loopGo_switch s.now (s.queue ++ [p]) s.currentStage s.lastStageTime
          with ⟨hcs, hlst⟩ | ⟨hcs, hlst, hg⟩
        · left
          constructor
          · simp only [step, if_neg hdone, hproc, if_false, runSync]
            exact hcs
          · simp only [step, if_neg hdone, hproc, if_false, runSync]
            exact hlst
        · right
          refine ⟨?_, ?_, hg⟩
          · simp only [step, if_neg hdone, hproc, if_false, runSync]
            exact hcs
          · simp only [step, if_neg hdone, hproc, if_false, runSync]
            exact hlst
  | wake =>
    cases hw : s.waiting with
    | none =>
      left
      constructor <;> simp [step, hw]
    | some d =>
      by_cases hd : d ≤ s.now
      · obtain ⟨hdt, ph, rest, hq, hst⟩ := h2 d hw
        have hsn := loopGo_stage_now s.now rest ph.stage
        right
        refine ⟨?_, ?_, by omega⟩
        · simp only [step, hw, hq, if_pos hd, runSync]
          rw [hsn.1]
          exact hst
        · simp only [step, hw, hq, if_pos hd, runSync]
          exact hsn.2
      · left
        constructor <;> simp [step, hw, hd]
  | force100 =>
    by_cases hg : s.queue = [] ∧ s.isProcessing = false ∧
        s.lastStageTime + MIN_STAGE_TIME ≤ s.now
    · left
      constructor <;> simp [step, hg]
    · left
      constructor <;> simp [step, hg]

/-- A step can set `forced` only when the force-100 guard held: queue
drained, no run in flight, and `MIN_STAGE_TIME` elapsed since the last
stage switch. -/
lemma step_forced (s : QueueSt) (a : QAct) :
    (step s a).forced = s.forced ∨
    (s.queue = [] ∧ s.isProcessing = false ∧
     s.lastStageTime + MIN_STAGE_TIME ≤ s.now) := by
  cases a with
  | tick d => exact Or.inl rfl
  | arrive p =>
    by_cases hdone : p.stage = "done"
    · left; simp [step, hdone]
    · cases hproc : s.isProcessing with
      | true => left; simp [step, hdone, hproc]
      | false => left; simp [step, hdone, hproc, runSync]
  | wake =>
    cases hw : s.waiting with
    | none => left; simp [step, hw]
    | some d =>
      by_cases hd : d ≤ s.now
      · cases hq : s.queue with
        | nil => left; simp [step, hw, hq, hd]
        | cons ph rest => left; simp [step, hw, hq, hd, runSync]
      · left; simp [step, hw, hd]
  | force100 =>
    by_cases hg : s.queue = [] ∧ s.isProcessing = false ∧
        s.lastStageTime + MIN_STAGE_TIME ≤ s.now
    · right; exact hg
    · left; simp [step, hg]

lemma mem_map_id_of_mem (l : List AnalysisSession) (x : AnalysisSession)
    (hx : x ∈ l) : x.id ∈ l.map (fun y => y.id) :=
  List.mem_map.mpr ⟨x, hx, rfl⟩

lemma eraseFirst_not_mem (id : String) :
    ∀ l : List AnalysisSession, (l.map (fun x => x.id)).Nodup →
    ∀ x ∈ eraseFirstSession id l, x.id ≠ id := by
  intro l
  induction l with
  | nil => intro _ x hx; simp [eraseFirstSession] at hx
  | cons y rest ih =>
    intro hnd x hx
    rw [List.map_cons, List.nodup_cons] at hnd
    by_cases hy : y.id = id
    · rw [eraseFirstSession, if_pos hy] at hx
      intro hxid
      exact hnd.1 (hy ▸ hxid ▸ mem_map_id_of_mem rest x hx)
    · rw [eraseFirstSession, if_neg hy] at hx
      rcases List.mem_cons.mp hx with rfl | hx'
      · exact hy
      · exact ih hnd.2 x hx'

lemma map_eq_self_of_fix {α : Type} (f : α → α) :
    ∀ l : List α, (∀ y ∈ l, f y = y) → l.map f = l := by
  intro l
  induction l with
  | nil => intro _; rfl
  | cons x rest ih =>
    intro h
    rw [List.map_cons, h x (by simp), ih (fun y hy => h y (by simp [hy]))]

lemma renameFirst_eq_map (id newName : String) :
    ∀ l : List AnalysisSession, (l.map (fun x => x.id)).Nodup →
    renameFirstSession id newName l =
      l.map (fun x => if x.id = id then { x with name := newName } else x) := by
  intro l
  induction l with
  | nil => intro _; rfl
  | cons y rest ih =>
    intro hnd
    rw [List.map_cons, List.nodup_cons] at hnd
    by_cases hy : y.id = id
    · rw [renameFirstSession, if_pos hy, List.map_cons, if_pos hy]
      have hfix : rest.map
          (fun x => if x.id = id then { x with name := newName } else x) = rest := by
        apply map_eq_self_of_fix
        intro z hz
        have hz' : z.id ≠ id := by
          intro hzid
          exact hnd.1 (hy ▸ hzid ▸ mem_map_id_of_mem rest z hz)
        rw [if_neg hz']
      rw [hfix]
    · rw [renameFirstSession, if_neg hy, List.map_cons, if_neg hy, ih hnd.2]

lemma buildMembers_eq :
    ∀ (ma : List MemberActivity) (hs : List (List MemberNameHistory)),
    hs.length = ma.length →
    buildMembersWithChanges ma hs =
      ((ma.zip hs).filter (fun x => decide (1 < x.2.length))).map
        (fun x => { memberId := x.1.memberId, name := x.1.name, history := x.2 }) := by
  intro ma
  induction ma with
  | nil => intro hs _; cases hs <;> rfl
  | cons m ms ih =>
    intro hs hlen
    cases hs with
    | nil => simp at hlen
    | cons h hrest =>
      have hlen' : hrest.length = ms.length := by simpa using hlen
      by_cases hh : 1 < h.length
      · simp [buildMembersWithChanges, List.zip_cons_cons, List.filter_cons, hh,
          ih hrest hlen']
      · simp [buildMembersWithChanges, List.zip_cons_cons, List.filter_cons, hh,
          ih hrest hlen']

lemma buildMembers_history :
    ∀ (ma : List MemberActivity) (hs : List (List MemberNameHistory))
      (mw : MemberWithHistory), mw ∈ buildMembersWithChanges ma hs →
    1 < mw.history.length := by
  intro ma
  induction ma with
  | nil => intro hs mw hmw; simp [buildMembersWithChanges] at hmw
  | cons m ms ih =>
    intro hs mw hmw
    cases hs with
    | nil => simp [buildMembersWithChanges] at hmw
    | cons h hrest =>
      by_cases hh : 1 < h.length
      · rw [buildMembersWithChanges, if_pos hh] at hmw
        rcases List.mem_cons.mp hmw with rfl | hmw'
        · exact hh
        · exact ih hrest mw hmw'
      · rw [buildMembersWithChanges, if_neg hh] at hmw
        exact ih hrest mw hmw

lemma normalizeVersion_vcons (c : Char) (w : List Char)
    (hc : c = 'v' ∨ c = 'V') (hw : w ≠ [])
    (hL : trimLeft w = w) (hR : trimRight w = w) (hS : stripLeadingV w = w) :
    normalizeVersion (some (c :: w)) = some w ∧
    normalizeVersion (some w) = some w := by
  have hcs : isJsSpace c = false := by
    rcases hc with rfl | rfl <;> decide
  have hrev : List.dropWhile isJsSpace w.reverse = w.reverse := by
    have h0 := congrArg List.reverse hR
    simpa [trimRight] using h0
  have h1 : trimLeft (c :: w) = c :: w := by
    simp [trimLeft, List.dropWhile_cons, hcs]
  have h2 : trimRight (c :: w) = c :: w := by
    have h3 : List.dropWhile isJsSpace (w.reverse ++ [c]) = w.reverse ++ [c] := by
      apply dropWhile_append_of_self isJsSpace w.reverse [c] hrev
      intro ch hch
      simp at hch
      rw [← hch]
      exact hcs
    simp [trimRight, List.reverse_cons, h3]
  have hstripc : stripLeadingV (c :: w) = w := by
    rw [stripLeadingV, if_pos hc]
  constructor
  · rw [show normalizeVersion (some (c :: w)) =
        some (stripLeadingV (jsTrim (c :: w))) from by
      simp [normalizeVersion]]
    rw [jsTrim, h1, h2, hstripc]
  · rw [show normalizeVersion (some w) =
        if w = [] then none else some (stripLeadingV (jsTrim w)) from rfl]
    rw [if_neg hw, jsTrim, hL, hR, hS]

/-- C3: `truncateContent(content, maxLength)` returns at most
`maxLength + 3` characters; content within the limit is returned unchanged,
longer content is cut to its first `maxLength` characters followed by
`'...'`. -/
theorem truncateContent_spec (content : List Char) (maxLength : Nat) :
    (truncateContent content maxLength).length ≤ maxLength + 3 ∧
    (content.length ≤ maxLength → truncateContent content maxLength = content) ∧
    (maxLength < content.length →
      truncateContent content maxLength =
        content.take maxLength ++ ['.', '.', '.']) := by
  refine ⟨?_, ?_, ?_⟩
  · by_cases h : content.length ≤ maxLength
    · simp only [truncateContent, if_pos h]
      omega
    · simp only [truncateContent, if_neg h, List.length_append, List.length_take]
      simp
  · intro h
    simp [truncateContent, h]
  · intro h
    have h' : ¬ content.length ≤ maxLength := by omega
    simp [truncateContent, h']

/-- Witness for C3: `truncateContent` evaluated on a concrete over-long
input. -/
theorem truncateContent_spec_witness :
    truncateContent ['a', 'b', 'c', 'd'] 2 = ['a', 'b', '.', '.', '.'] ∧
    (truncateContent ['a', 'b', 'c', 'd'] 2).length ≤ 5 := by
  have h := truncateContent_spec ['a', 'b', 'c', 'd'] 2
  constructor
  · rw [h.2.2 (by decide)]
    decide
  · exact h.1

/-- C4 counterexample: on a displayed list whose first element is not the
maximum, `getRelativePercentage` returns 500, which is neither between 0 and
100 nor `Math.round` of the member's value over the list's maximum value
(that would be 100). -/
theorem getRelativePercentage_exceeds_100 :
    getRelativePercentage (displayMembers rankDemo 0) 1 = 500 ∧
    ¬ getRelativePercentage (displayMembers rankDemo 0) 1 ≤ 100 ∧
    ((displayMembers rankDemo 0).map (fun m => m.value)).foldr Nat.max 0 = 5 ∧
    jsRound (5 * 100) 5 = 100 := by
  decide

/-- C4 amended: `getRelativePercentage` divides by the FIRST displayed
member's value.  When the displayed list is sorted so that its first element
carries the maximum value (the intended ranking order), the first value is
the list maximum, the result is `Math.round((value / max) * 100)` and lies
between 0 and 100; it is 0 when the list is empty or the first (maximum)
value is 0. -/
theorem getRelativePercentage_sorted_spec (m0 : RankItem) (rest : List RankItem)
    (i : Nat) (hi : i < (m0 :: rest).length)
    (hmax : ∀ x ∈ m0 :: rest, x.value ≤ m0.value) :
    getRelativePercentage (m0 :: rest) i ≤ 100 ∧
    m0.value = ((m0 :: rest).map (fun m => m.value)).foldr Nat.max 0 ∧
    (m0.value = 0 → getRelativePercentage (m0 :: rest) i = 0) ∧
    (m0.value ≠ 0 →
      getRelativePercentage (m0 :: rest) i =
        jsRound (((m0 :: rest).getD i m0).value * 100) m0.value) ∧
    getRelativePercentage [] i = 0 := by
  refine ⟨?_, ?_, ?_, ?_, rfl⟩
  · by_cases h0 : m0.value = 0
    · simp [getRelativePercentage, h0]
    · have hv : ((m0 :: rest).getD i m0).value ≤ m0.value :=
        hmax _ (getD_mem_of_lt _ i m0 hi)
      simp only [getRelativePercentage, if_neg h0]
      exact jsRound_le_100 _ _ (Nat.pos_of_ne_zero h0) hv
  · have h1 : (rest.map (fun m => m.value)).foldr Nat.max 0 ≤ m0.value := by
      apply foldr_max_le
      intro v hv
      obtain ⟨x, hx, rfl⟩ := List.mem_map.mp hv
      exact hmax x (List.mem_cons_of_mem _ hx)
    simp only [List.map_cons, List.foldr_cons]
    exact (Nat.max_eq_left h1).symm
  · intro h0
    simp [getRelativePercentage, h0]
  · intro h0
    simp [getRelativePercentage, h0]

/-- Witness for C4 (amended): a concrete descending list. -/
theorem getRelativePercentage_sorted_spec_witness :
    getRelativePercentage
      [{ id := "b", name := "B", value := 5, percentage := 50 },
       { id := "a", name := "A", value := 1, percentage := 10 }] 1 ≤ 100 ∧
    getRelativePercentage
      [{ id := "b", name := "B", value := 5, percentage := 50 },
       { id := "a", name := "A", value := 1, percentage := 10 }] 1 = 20 := by
  have h := getRelativePercentage_sorted_spec
    { id := "b", name := "B", value := 5, percentage := 50 }
    [{ id := "a", name := "A", value := 1, percentage := 10 }] 1
    (by decide) (by decide)
  exact ⟨h.1, by decide⟩

/-- C10 counterexample: `normalizeVersion` is not idempotent on every
string — the regex `/^v/i` strips only one leading letter, so applying the
function to `"vv"` gives `"v"`, and applying it again gives `""`. -/
theorem normalizeVersion_not_idempotent :
    normalizeVersion (normalizeVersion (some ['v', 'v'])) ≠
      normalizeVersion (some ['v', 'v']) := by
  decide

/-- C10 amended: `normalizeVersion` maps `null`/`undefined` and the empty
string to `null`; it is idempotent on every input whose normalized form is
already normal (non-empty, trimmed, and without a further leading `'v'`/
`'V'`), and `isCurrentVersion` is insensitive to a leading `'v'`/`'V'`
prefix on every trimmed version string that does not itself start with
`'v'`/`'V'`.  (The unrestricted claims fail, e.g. on `"vv"`.) -/
theorem normalizeVersion_normal_form_spec :
    normalizeVersion none = none ∧
    normalizeVersion (some ([] : List Char)) = none ∧
    (∀ s, normalizeVersion s = none →
      normalizeVersion (normalizeVersion s) = normalizeVersion s) ∧
    (∀ s t, normalizeVersion s = some t → t ≠ [] →
      jsTrim t = t → stripLeadingV t = t →
      normalizeVersion (normalizeVersion s) = normalizeVersion s) ∧
    (∀ cur c w, (c = 'v' ∨ c = 'V') → w ≠ [] →
      trimLeft w = w → trimRight w = w → stripLeadingV w = w →
      isCurrentVersion cur (c :: w) = isCurrentVersion cur w) := by
  refine ⟨rfl, rfl, ?_, ?_, ?_⟩
  · intro s h
    rw [h]
    rfl
  · intro s t h ht hTrim hStrip
    rw [h]
    rw [show normalizeVersion (some t) =
        if t = [] then none else some (stripLeadingV (jsTrim t)) from rfl]
    rw [if_neg ht, hTrim, hStrip, ← h]
  · intro cur c w hc hw hL hR hS
    have hn := normalizeVersion_vcons c w hc hw hL hR hS
    cases hcur : normalizeVersion cur with
    | none => simp [isCurrentVersion, hcur]
    | some cur2 => simp [isCurrentVersion, hcur, hn.1, hn.2]

/-- Witness for C10 (amended): concrete normal-form version strings. -/
theorem normalizeVersion_normal_form_spec_witness :
    normalizeVersion (normalizeVersion (some ['1', '.', '0'])) =
      normalizeVersion (some ['1', '.', '0']) ∧
    isCurrentVersion (some ['1']) ['v', '1'] = isCurrentVersion (some ['1']) ['1'] := by
  have h := normalizeVersion_normal_form_spec
  constructor
  · exact h.2.2.2.1 (some ['1', '.', '0']) ['1', '.', '0'] (by decide) (by decide)
      (by decide) (by decide)
  · exact h.2.2.2.2 (some ['1']) 'v' ['1'] (Or.inl rfl) (by decide) (by decide)
      (by decide) (by decide)

/-- C5: each data-loading action handles a rejected bridge call by catching
it, resetting its loading flag, and leaving the previously stored data
untouched; `loadSessions` additionally still sets `isInitialized`. -/
theorem load_actions_error_frame (sid e1 e2 e3 : String)
    (rs : RepeatPanelState) (cs : CatchphrasePanelState) (st : ChatStoreState)
    (hsid : sid ≠ "") :
    (loadRepeatAnalysis sid (.error e1) rs).isLoading = false ∧
    (loadRepeatAnalysis sid (.error e1) rs).repeatAnalysis = rs.repeatAnalysis ∧
    (loadCatchphraseAnalysis sid (.error e2) cs).isLoadingCatchphrase = false ∧
    (loadCatchphraseAnalysis sid (.error e2) cs).catchphraseAnalysis =
      cs.catchphraseAnalysis ∧
    (loadSessions (.error e3) st).sessions = st.sessions ∧
    (loadSessions (.error e3) st).currentSessionId = st.currentSessionId ∧
    (loadSessions (.error e3) st).isInitialized = true := by
  refine ⟨?_, ?_, ?_, ?_, rfl, rfl, rfl⟩ <;>
    simp [loadRepeatAnalysis, loadCatchphraseAnalysis, hsid]

/-- Witness for C5: a failed bridge call against concrete panel and store
states. -/
theorem load_actions_error_frame_witness :
    (loadRepeatAnalysis "s" (Except.error "e1")
      { repeatAnalysis := some { hotContents := [] }, isLoading := true }).isLoading
      = false ∧
    (loadSessions (Except.error "e3")
      { sessions := [{ id := "s1", name := "n" }],
        currentSessionId := some "s1", isInitialized := false }).sessions =
      [{ id := "s1", name := "n" }] := by
  constructor
  · exact (load_actions_error_frame "s" "e1" "e2" "e3"
      { repeatAnalysis := some { hotContents := [] }, isLoading := true }
      { catchphraseAnalysis := none, isLoadingCatchphrase := true }
      { sessions := [{ id := "s1", name := "n" }],
        currentSessionId := some "s1", isInitialized := false }
      (by decide)).1
  · exact (load_actions_error_frame "s" "e1" "e2" "e3"
      { repeatAnalysis := some { hotContents := [] }, isLoading := true }
      { catchphraseAnalysis := none, isLoadingCatchphrase := true }
      { sessions := [{ id := "s1", name := "n" }],
        currentSessionId := some "s1", isInitialized := false }
      (by decide)).2.2.2.2.1

/-- C6: `loadMembersWithNicknameChanges` issues one `getMemberNameHistory`
call per `memberActivity` entry, and keeps exactly the members whose
returned history has more than one entry, each paired with its own history,
in `memberActivity` order. -/
theorem loadMembersWithNicknameChanges_spec (sid : String)
    (ma : List MemberActivity) (hs : List (List MemberNameHistory))
    (prev : List MemberWithHistory)
    (hsid : sid ≠ "") (hma : ma ≠ []) (hlen : hs.length = ma.length) :
    (loadMembersWithNicknameChanges sid ma hs prev).2 =
      nicknameHistoryCalls sid ma ∧
    (loadMembersWithNicknameChanges sid ma hs prev).2.length = ma.length ∧
    (loadMembersWithNicknameChanges sid ma hs prev).1 =
      ((ma.zip hs).filter (fun x => decide (1 < x.2.length))).map
        (fun x => { memberId := x.1.memberId, name := x.1.name,
                    history := x.2 }) ∧
    (∀ mw ∈ (loadMembersWithNicknameChanges sid ma hs prev).1,
      1 < mw.history.length) := by
  have hg : ¬ (sid = "" ∨ ma.length = 0) := by
    simp [hsid, List.length_eq_zero, hma]
  simp only [loadMembersWithNicknameChanges, if_neg hg]
  refine ⟨?_, ?_, ?_, ?_⟩
  · simp
  · simp [nicknameHistoryCalls]
  · exact buildMembers_eq ma hs hlen
  · intro mw hmw
    exact buildMembers_history ma hs mw hmw

/-- Witness for C6: two members, only the second of which has more than one
history entry. -/
theorem loadMembersWithNicknameChanges_spec_witness :
    (loadMembersWithNicknameChanges "s"
      [{ memberId := 1, name := "a" }, { memberId := 2, name := "b" }]
      [[{ name := "x", startTs := 0, endTs := none }],
       [{ name := "x", startTs := 0, endTs := some 5 },
        { name := "y", startTs := 5, endTs := none }]]
      []).1 =
      [{ memberId := 2, name := "b",
         history := [{ name := "x", startTs := 0, endTs := some 5 },
                     { name := "y", startTs := 5, endTs := none }] }] ∧
    (loadMembersWithNicknameChanges "s"
      [{ memberId := 1, name := "a" }, { memberId := 2, name := "b" }]
      [[{ name := "x", startTs := 0, endTs := none }],
       [{ name := "x", startTs := 0, endTs := some 5 },
        { name := "y", startTs := 5, endTs := none }]]
      []).2.length = 2 := by
  have h := loadMembersWithNicknameChanges_spec "s"
    [{ memberId := 1, name := "a" }, { memberId := 2, name := "b" }]
    [[{ name := "x", startTs := 0, endTs := none }],
     [{ name := "x", startTs := 0, endTs := some 5 },
      { name := "y", startTs := 5, endTs := none }]]
    [] (by decide) (by decide) (by decide)
  constructor
  · rw [h.2.2.1]
    decide
  · exact h.2.1

/-- C7: `checkUpdate` registers a handler for each of the five auto-update
events, and the `download-progress` handler forwards exactly the received
percentage to the renderer on the `update-download-progress` channel. -/
theorem checkUpdate_registrations_spec :
    checkUpdateRegistrations.map Prod.fst =
      ["update-available", "download-progress", "update-downloaded",
       "update-not-available", "error"] ∧
    checkUpdateRegistrations.length = 5 ∧
    (∀ percent : Rat,
      rendererSends (downloadProgressHandler percent) =
        [("update-download-progress", percent)]) := by
  exact ⟨rfl, rfl, fun _ => rfl⟩

/-- C8 counterexample: JS truthiness — `loadSessions` only clears a truthy
`currentSessionId`, so the empty-string id survives a fetch that does not
contain it.  (`currentSession` is still `null` for it, so the
session-consistency invariant itself is unharmed.) -/
theorem loadSessions_empty_id_not_reset :
    (loadSessions (.ok [])
      { sessions := [], currentSessionId := some "", isInitialized := false
      }).currentSessionId = some "" ∧
    (([] : List AnalysisSession).find? (fun x => x.id = "")).isNone = true ∧
    currentSession
      { sessions := [], currentSessionId := some "", isInitialized := false }
      = none := by
  decide

/-- C8 amended: `currentSession` is `null` or a member of `sessions` in every
store state (hence after every action); `loadSessions` resets a non-empty
`currentSessionId` absent from the fetched list to `null`; a successful
`deleteSession` removes the session with the given id (ids assumed unique)
and clears the selection exactly when it pointed at that id. -/
theorem currentSession_consistency_spec :
    (∀ s sess, currentSession s = some sess → sess ∈ s.sessions) ∧
    (∀ s list id, s.currentSessionId = some id → id ≠ "" →
      (list.find? (fun x => x.id = id)).isNone = true →
      (loadSessions (.ok list) s).currentSessionId = none) ∧
    (∀ s id, (s.sessions.map (fun x => x.id)).Nodup →
      (∀ x ∈ (deleteSession id (.ok true) s).1.sessions, x.id ≠ id) ∧
      (s.currentSessionId = some id →
        (deleteSession id (.ok true) s).1.currentSessionId = none) ∧
      (s.currentSessionId ≠ some id →
        (deleteSession id (.ok true) s).1.currentSessionId =
          s.currentSessionId)) := by
  refine ⟨?_, ?_, ?_⟩
  · intro s sess h
    unfold currentSession at h
    cases hc : s.currentSessionId with
    | none => rw [hc] at h; cases h
    | some id =>
      rw [hc] at h
      by_cases hid : id = ""
      · simp [hid] at h
      · simp [hid] at h
        exact List.mem_of_find?_eq_some h
  · intro s list id h hne hnone
    simp [loadSessions, h, hne, hnone]
  · intro s id hnd
    refine ⟨?_, ?_, ?_⟩
    · intro x hx
      exact eraseFirst_not_mem id s.sessions hnd x hx
    · intro hcur
      simp [deleteSession, hcur]
    · intro hcur
      simp [deleteSession, hcur]

/-- Witness for C8 (amended): deleting the selected session of a concrete
store. -/
theorem currentSession_consistency_spec_witness :
    (deleteSession "a" (Except.ok true)
      { sessions := [{ id := "a", name := "x" }],
        currentSessionId := some "a", isInitialized := true
      }).1.currentSessionId = none ∧
    (loadSessions (Except.ok [])
      { sessions := [], currentSessionId := some "a", isInitialized := true
      }).currentSessionId = none := by
  constructor
  · exact (currentSession_consistency_spec.2.2
      { sessions := [{ id := "a", name := "x" }],
        currentSessionId := some "a", isInitialized := true }
      "a" (by decide)).2.1 (by decide)
  · exact currentSession_consistency_spec.2.1
      { sessions := [], currentSessionId := some "a", isInitialized := true }
      [] "a" (by decide) (by decide) (by decide)

/-- C9: `renameSession` changes only the `name` of the matching session
(ids assumed unique), and only when the bridge returned `true`: the length,
order and ids of `sessions` and the selection are unchanged; a bridge
rejection or `false` leaves the store untouched and returns `false`. -/
theorem renameSession_frame_spec (id newName e : String) (s : ChatStoreState)
    (hnd : (s.sessions.map (fun x => x.id)).Nodup) :
    renameSession id newName (.error e) s = (s, false) ∧
    renameSession id newName (.ok false) s = (s, false) ∧
    (renameSession id newName (.ok true) s).2 = true ∧
    (renameSession id newName (.ok true) s).1.currentSessionId =
      s.currentSessionId ∧
    (renameSession id newName (.ok true) s).1.isInitialized =
      s.isInitialized ∧
    (renameSession id newName (.ok true) s).1.sessions =
      s.sessions.map
        (fun x => if x.id = id then { x with name := newName } else x) ∧
    (renameSession id newName (.ok true) s).1.sessions.length =
      s.sessions.length ∧
    (renameSession id newName (.ok true) s).1.sessions.map (fun x => x.id) =
      s.sessions.map (fun x => x.id) := by
  have hmap := renameFirst_eq_map id newName s.sessions hnd
  refine ⟨rfl, rfl, rfl, rfl, rfl, ?_, ?_, ?_⟩
  · exact hmap
  · show (renameFirstSession id newName s.sessions).length = s.sessions.length
    rw [hmap, List.length_map]
  · show (renameFirstSession id newName s.sessions).map (fun x => x.id) =
      s.sessions.map (fun x => x.id)
    rw [hmap, List.map_map]
    apply List.map_congr_left
    intro x _
    by_cases hx : x.id = id
    · simp [hx]
    · simp [hx]

/-- Witness for C9: renaming one of two concrete sessions. -/
theorem renameSession_frame_spec_witness :
    (renameSession "a" "z" (Except.ok true)
      { sessions := [{ id := "a", name := "x" }, { id := "b", name := "y" }],
        currentSessionId := some "b", isInitialized := true }).1.sessions =
      [{ id := "a", name := "z" }, { id := "b", name := "y" }] ∧
    renameSession "a" "z" (Except.ok false)
      { sessions := [{ id := "a", name := "x" }, { id := "b", name := "y" }],
        currentSessionId := some "b", isInitialized := true } =
      ({ sessions := [{ id := "a", name := "x" }, { id := "b", name := "y" }],
         currentSessionId := some "b", isInitialized := true }, false) := by
  have h := renameSession_frame_spec "a" "z" "e"
    { sessions := [{ id := "a", name := "x" }, { id := "b", name := "y" }],
      currentSessionId := some "b", isInitialized := true } (by decide)
  constructor
  · rw [h.2.2.2.2.2.1]
    decide
  · exact h.2.1

/-- C2: in every reachable state of the progress-queue machine the
`isProcessing` flag is set exactly while a (suspended) `processQueue` run is
in flight — so a second concurrent run can never start — and the events
pushed by the `onImportProgress` callbacks are exactly the write log of
`importProgress` followed by the still-pending queue, i.e. every enqueued
event is applied at most once, in FIFO arrival order, and exactly once by
the time the queue has drained. -/
theorem progressQueue_serialization_fifo (t0 : Nat) (acts : List QAct) :
    (runActs (initSt t0) acts).isProcessing =
      (runActs (initSt t0) acts).waiting.isSome ∧
    (runActs (initSt t0) acts).arrivals =
      (runActs (initSt t0) acts).writes.map Prod.snd ++
        (runActs (initSt t0) acts).queue ∧
    ((runActs (initSt t0) acts).isProcessing = false →
      (runActs (initSt t0) acts).arrivals =
        (runActs (initSt t0) acts).writes.map Prod.snd) := by
  obtain ⟨h1, h2, h3, h4, h5⟩ := inv_runActs acts (initSt t0) (inv_initSt t0)
  refine ⟨h1, h4, ?_⟩
  intro hp
  have hw : (runActs (initSt t0) acts).waiting = none := by
    cases hww : (runActs (initSt t0) acts).waiting with
    | none => rfl
    | some d => rw [hww, hp] at h1; simp at h1
  rw [h4, h3 hw]
  simp

/-- Witness for C2: one arrived event, fully applied. -/
theorem progressQueue_serialization_fifo_witness :
    (runActs (initSt 0)
        [QAct.arrive { stage := "reading", progress := 5, message := "m" }]).arrivals =
      (runActs (initSt 0)
        [QAct.arrive { stage := "reading", progress := 5, message := "m" }]).writes.map
          Prod.snd :=
  (progressQueue_serialization_fifo 0
    [QAct.arrive { stage := "reading", progress := 5, message := "m" }]).2.2
    (by decide)

/-- C1 counterexample: the tracker `currentStage` is initialised to
`'reading'` while the displayed placeholder has stage `'detecting'`, so a
first `'reading'` event replaces the displayed stage immediately: the
displayed stage changes with 0 ms elapsed since `'detecting'` first became
the displayed stage (at `initSt` time, which equals `lastStageTime`). -/
theorem progressQueue_initial_stage_no_min_time :
    (initSt 0).displayed.stage = "detecting" ∧
    (step (initSt 0)
      (QAct.arrive { stage := "reading", progress := 10, message := "m" })
      ).displayed.stage = "reading" ∧
    (step (initSt 0)
      (QAct.arrive { stage := "reading", progress := 10, message := "m" })
      ).now = (initSt 0).now ∧
    (initSt 0).now = (initSt 0).lastStageTime := by
  decide

/-- C1 amended: the 1-second minimum display time is enforced for the
tracked stage `currentStage` (initialised to `'reading'`, not to the
displayed placeholder's `'detecting'`): along any trace, a step changes the
tracked stage only when at least `MIN_STAGE_TIME` has elapsed since
`lastStageTime`, which is exactly the time of the previous change; once any
queued event has been written the displayed stage coincides with the tracked
stage, so after the first write every displayed-stage change obeys the
minimum; and the final force-to-100 also happens at least `MIN_STAGE_TIME`
after the last stage change. -/
theorem progressQueue_min_stage_time_spec (t0 : Nat) (acts : List QAct)
    (a : QAct) :
    ((step (runActs (initSt t0) acts) a).currentStage ≠
        (runActs (initSt t0) acts).currentStage →
      (runActs (initSt t0) acts).lastStageTime + MIN_STAGE_TIME ≤
        (runActs (initSt t0) acts).now ∧
      (step (runActs (initSt t0) acts) a).lastStageTime =
        (runActs (initSt t0) acts).now) ∧
    ((step (runActs (initSt t0) acts) a).currentStage =
        (runActs (initSt t0) acts).currentStage →
      (step (runActs (initSt t0) acts) a).lastStageTime =
        (runActs (initSt t0) acts).lastStageTime) ∧
    ((step (runActs (initSt t0) acts) a).forced = true →
      (runActs (initSt t0) acts).forced = false →
      (runActs (initSt t0) acts).lastStageTime + MIN_STAGE_TIME ≤
        (runActs (initSt t0) acts).now) ∧
    ((runActs (initSt t0) acts).writes ≠ [] →
      (runActs (initSt t0) acts).displayed.stage =
        (runActs (initSt t0) acts).currentStage) := by
  have hInv := inv_runActs acts (initSt t0) (inv_initSt t0)
  refine ⟨?_, ?_, ?_, ?_⟩
  · intro hc
    rcases step_cs_lst _ a hInv with ⟨hcs, hlst⟩ | ⟨hcs, hlst, hg⟩
    · exact absurd hcs hc
    · exact ⟨hg, hlst⟩
  · intro hc
    rcases step_cs_lst _ a hInv with ⟨hcs, hlst⟩ | ⟨hcs, hlst, hg⟩
    · exact hlst
    · exact absurd hc hcs
  · intro hf hnf
    rcases step_forced (runActs (initSt t0) acts) a with he | hg
    · rw [he, hnf] at hf
      exact absurd hf (by simp)
    · exact hg.2.2
  · intro hwne
    rcases hInv.2.2.2.2 with h5l | h5r
    · exact absurd h5l hwne
    · exact h5r

/-- Witness for C1 (amended): a concrete step that keeps the tracked stage
keeps the stage timestamp. -/
theorem progressQueue_min_stage_time_spec_witness :
    (step (runActs (initSt 0) []) (QAct.tick 7)).lastStageTime =
      (runActs (initSt 0) []).lastStageTime :=
  (progressQueue_min_stage_time_spec 0 [] (QAct.tick 7)).2.1 (by decide)

end ChatLab
